import Mathlib

/-!
# Shallow embedding of `runtime/src/blockhash_queue.rs`

The Rust type `BlockhashQueue` is a registry of recently registered blockhashes
("recency markers").  We embed it as a Lean structure:

* `Hash` and `FeeCalculator` are opaque in the source (a 32-byte hash and a
  fee-schedule struct); the registry only ever compares hashes for equality and
  stores fee calculators verbatim, so both are modelled as `Nat`.
* the Rust `HashMap<Hash, HashAge>` is modelled as an association list
  `List (Nat × HashAge)`; the predicate `WF` (keys pairwise distinct) carves
  out exactly the states a `HashMap` can represent.  `insertAge` has the
  `HashMap::insert` semantics (replace on duplicate key), `lookupAge` the
  `HashMap::get` semantics.
* `u64` values are modelled as `Nat`; the `u64` subtraction
  `self.hash_height - age.hash_height` is modelled as truncated `Nat`
  subtraction.  The two agree on every state in which no entry's
  `hash_height` exceeds the registry's `hash_height` (the underflow-freedom
  invariant treated separately below).
* the source calls `timestamp()` (wall clock) inside `register_hash` and
  `genesis_hash`; the clock reading is made an explicit parameter `ts`.
* Rust panics (`Option::unwrap` / `expect`) are modelled by an outer `Option`
  layer whose `none` is the panic.
-/

/-- Embeds the Rust struct `HashAge` (fee calculator snapshot, height at
registration, wall-clock timestamp). -/
structure HashAge where
  fee_calculator : Nat
  hash_height : Nat
  timestamp : Nat
deriving DecidableEq, Repr

/-- Embeds the Rust struct `BlockhashQueue`. -/
structure BlockhashQueue where
  hash_height : Nat
  last_hash : Option Nat
  ages : List (Nat × HashAge)
  max_age : Nat
  force_calculator : Option Nat
deriving DecidableEq, Repr

/-- Models `HashMap::get` on the association-list representation: the first entry with the
given key. -/
def lookupAge : List (Nat × HashAge) → Nat → Option HashAge
  | [], _ => none
  | p :: rest, h => if p.1 = h then some p.2 else lookupAge rest h

/-- The keys of the association list. -/
def keysOf (l : List (Nat × HashAge)) : List Nat :=
  l.map Prod.fst

/-- The `hash_height` fields of all entries. -/
def heightsOf (l : List (Nat × HashAge)) : List Nat :=
  l.map (fun p => p.2.hash_height)

/-- Remove the entry with the given key, if present. -/
def eraseKey (l : List (Nat × HashAge)) (k : Nat) : List (Nat × HashAge) :=
  l.filter (fun p => !(p.1 == k))

/-- Models `HashMap::insert`: replaces the value on a duplicate key. -/
def insertAge (l : List (Nat × HashAge)) (k : Nat) (a : HashAge) :
    List (Nat × HashAge) :=
  (k, a) :: eraseKey l k

/-- Well-formedness: the association list represents a `HashMap`, i.e. its
keys are pairwise distinct.  Every operation of the registry preserves it. -/
def WF (q : BlockhashQueue) : Prop :=
  (keysOf q.ages).Nodup

instance (q : BlockhashQueue) : Decidable (WF q) := by
  unfold WF; infer_instance

/-- Embeds `BlockhashQueue::new(max_age)`. -/
def BlockhashQueue.new (max_age : Nat) : BlockhashQueue :=
  { ages := []
    hash_height := 0
    last_hash := none
    max_age := max_age
    force_calculator := none }

/-- Embeds `BlockhashQueue::last_hash()`: `self.last_hash.expect("no hash has been
set")`.  The result `none` models the `expect` panic (the spec's
`UnsetState` failure). -/
def BlockhashQueue.last_hash_get (q : BlockhashQueue) : Option Nat :=
  q.last_hash

/-- Embeds `BlockhashQueue::get_fee_calculator(hash)` (deprecated in the source).
The outer `Option` layer models panics: the result is `none` exactly when the
source would panic on `self.last_hash.as_ref().unwrap()`; `some r` means the
source returns the `Option<&FeeCalculator>` value `r`. -/
def BlockhashQueue.get_fee_calculator (q : BlockhashQueue) (hash : Nat) :
    Option (Option Nat) :=
  if q.force_calculator.isSome then
    some q.force_calculator
  else
    match lookupAge q.ages hash with
    | some age => some (some age.fee_calculator)
    | none =>
      match q.last_hash with
      | some lh => some ((lookupAge q.ages lh).map (fun age => age.fee_calculator))
      | none => none

/-- Embeds `BlockhashQueue::check_hash_age(hash, max_age)`. -/
def BlockhashQueue.check_hash_age (q : BlockhashQueue) (hash : Nat)
    (max_age : Nat) : Option Bool :=
  if q.force_calculator.isSome then
    some true
  else
    (lookupAge q.ages hash).map
      (fun age => decide (q.hash_height - age.hash_height ≤ max_age))

/-- Embeds `BlockhashQueue::get_hash_age(hash)`. -/
def BlockhashQueue.get_hash_age (q : BlockhashQueue) (hash : Nat) :
    Option Nat :=
  (lookupAge q.ages hash).map (fun age => q.hash_height - age.hash_height)

/-- Embeds `BlockhashQueue::check_hash(hash)`. -/
def BlockhashQueue.check_hash (q : BlockhashQueue) (hash : Nat) : Bool :=
  (lookupAge q.ages hash).isSome

/-- Embeds `BlockhashQueue::force_set_calculator_for_every(fee_calculator)`. -/
def BlockhashQueue.force_set_calculator_for_every (q : BlockhashQueue)
    (fee_calculator : Nat) : BlockhashQueue :=
  { q with force_calculator := some fee_calculator }

/-- Embeds `BlockhashQueue::force_insert_old(hash, fee_calculator, hash_height,
timestamp)`: the `Bool` is the source's return value, the queue the updated
state. -/
def BlockhashQueue.force_insert_old (q : BlockhashQueue) (hash : Nat)
    (fee_calculator : Nat) (hash_height : Nat) (timestamp : Nat) :
    Bool × BlockhashQueue :=
  if (lookupAge q.ages hash).isSome then
    (false, q)
  else
    (true,
      { q with
        ages := insertAge q.ages hash
          { fee_calculator := fee_calculator
            hash_height := hash_height
            timestamp := timestamp } })

/-- Embeds `BlockhashQueue::genesis_hash(hash, fee_calculator)`; `ts` is the
`timestamp()` wall-clock reading made explicit. -/
def BlockhashQueue.genesis_hash (q : BlockhashQueue) (hash : Nat)
    (fee_calculator : Nat) (ts : Nat) : BlockhashQueue :=
  { q with
    ages := insertAge q.ages hash
      { fee_calculator := fee_calculator, hash_height := 0, timestamp := ts }
    last_hash := some hash }

/-- Embeds `BlockhashQueue::check_age(hash_height, max_age, age)`. -/
def BlockhashQueue.check_age (hash_height : Nat) (max_age : Nat)
    (age : HashAge) : Bool :=
  decide (hash_height - age.hash_height ≤ max_age)

/-- Embeds `BlockhashQueue::register_hash(hash, fee_calculator)`; `ts` is the
`timestamp()` wall-clock reading made explicit.  Increments the height,
lazily evicts (only when `ages.len() >= max_age`) every entry whose age
strictly exceeds `max_age`, inserts the new entry at the post-increment
height, and records the hash as last. -/
def BlockhashQueue.register_hash (q : BlockhashQueue) (hash : Nat)
    (fee_calculator : Nat) (ts : Nat) : BlockhashQueue :=
  let hash_height := q.hash_height + 1
  let max_age := q.max_age
  let ages :=
    if max_age ≤ q.ages.length then
      q.ages.filter (fun p => BlockhashQueue.check_age hash_height max_age p.2)
    else
      q.ages
  { q with
    hash_height := hash_height
    ages := insertAge ages hash
      { fee_calculator := fee_calculator
        hash_height := hash_height
        timestamp := ts }
    last_hash := some hash }

/-- Embeds `BlockhashQueue::hash_height_to_timestamp(hash_height)`. -/
def BlockhashQueue.hash_height_to_timestamp (q : BlockhashQueue)
    (hash_height : Nat) : Option Nat :=
  (q.ages.find? (fun p => p.2.hash_height == hash_height)).map
    (fun p => p.2.timestamp)

/-- Embeds `BlockhashQueue::get_recent_blockhashes()` (deprecated in the source):
one `(hash_height, hash, fee_calculator)` triple per live entry. -/
def BlockhashQueue.get_recent_blockhashes (q : BlockhashQueue) :
    List (Nat × Nat × Nat) :=
  q.ages.map (fun p => (p.2.hash_height, p.1, p.2.fee_calculator))

/-- Embeds `BlockhashQueue::len()`: the configured `max_age`, not the entry count. -/
def BlockhashQueue.len (q : BlockhashQueue) : Nat :=
  q.max_age

/-- The mutating public operations of the registry, with every wall-clock
reading as an explicit field. -/
inductive Op where
  | register (hash fee_calculator ts : Nat)
  | genesis (hash fee_calculator ts : Nat)
  | forceInsertOld (hash fee_calculator hash_height ts : Nat)
  | forceSetCalculator (fee_calculator : Nat)
deriving DecidableEq, Repr

/-- State transformer of one mutating operation. -/
def applyOp (q : BlockhashQueue) : Op → BlockhashQueue
  | Op.register h f ts => BlockhashQueue.register_hash q h f ts
  | Op.genesis h f ts => BlockhashQueue.genesis_hash q h f ts
  | Op.forceInsertOld h f hh ts => (BlockhashQueue.force_insert_old q h f hh ts).2
  | Op.forceSetCalculator f => BlockhashQueue.force_set_calculator_for_every q f

/-- Run a sequence of mutating operations from a state. -/
def runOps (q : BlockhashQueue) (ops : List Op) : BlockhashQueue :=
  ops.foldl applyOp q

/-- Run a sequence of `register_hash` calls (hash, fee calculator, clock
reading). -/
def runRegs (q : BlockhashQueue) (regs : List (Nat × Nat × Nat)) :
    BlockhashQueue :=
  regs.foldl (fun s r => BlockhashQueue.register_hash s r.1 r.2.1 r.2.2) q

/-- Small-step relation of the mutating operations: `Step q op q2 r` holds
when running `op` in state `q` produces the successor state `q2` and the
returned value `r` (`some b` for `force_insert_old`, `none` for operations
that return nothing). -/
inductive Step : BlockhashQueue → Op → BlockhashQueue → Option Bool → Prop where
  | register (q : BlockhashQueue) (h f ts : Nat) :
      Step q (Op.register h f ts) (BlockhashQueue.register_hash q h f ts) none
  | genesis (q : BlockhashQueue) (h f ts : Nat) :
      Step q (Op.genesis h f ts) (BlockhashQueue.genesis_hash q h f ts) none
  | forceInsert (q : BlockhashQueue) (h f hh ts : Nat) :
      Step q (Op.forceInsertOld h f hh ts)
        (BlockhashQueue.force_insert_old q h f hh ts).2
        (some (BlockhashQueue.force_insert_old q h f hh ts).1)
  | forceSet (q : BlockhashQueue) (f : Nat) :
      Step q (Op.forceSetCalculator f)
        (BlockhashQueue.force_set_calculator_for_every q f) none

/-- Reachability by the public operations, with `force_insert_old` restricted
to its intended use: injecting entries whose `hash_height` argument does not
exceed the registry's current height (the spec's "arbitrary *past*
heights"). -/
inductive ReachableSafe (q0 : BlockhashQueue) : BlockhashQueue → Prop where
  | refl : ReachableSafe q0 q0
  | register (q : BlockhashQueue) (h f ts : Nat) :
      ReachableSafe q0 q →
      ReachableSafe q0 (BlockhashQueue.register_hash q h f ts)
  | genesis (q : BlockhashQueue) (h f ts : Nat) :
      ReachableSafe q0 q →
      ReachableSafe q0 (BlockhashQueue.genesis_hash q h f ts)
  | forceInsert (q : BlockhashQueue) (h f hh ts : Nat) :
      ReachableSafe q0 q → hh ≤ q.hash_height →
      ReachableSafe q0 (BlockhashQueue.force_insert_old q h f hh ts).2
  | forceSet (q : BlockhashQueue) (f : Nat) :
      ReachableSafe q0 q →
      ReachableSafe q0 (BlockhashQueue.force_set_calculator_for_every q f)

theorem lookupAge_cons (k : Nat) (a : HashAge) (l : List (Nat × HashAge))
    (x : Nat) :
    lookupAge ((k, a) :: l) x = if k = x then some a else lookupAge l x := rfl

theorem keysOf_cons (k : Nat) (a : HashAge) (l : List (Nat × HashAge)) :
    keysOf ((k, a) :: l) = k :: keysOf l := rfl

theorem lookupAge_eq_none_of_not_mem (l : List (Nat × HashAge)) (x : Nat)
    (hx : x ∉ keysOf l) : lookupAge l x = none := by
  induction l with
  | nil => rfl
  | cons p rest ih =>
    rw [show p = (p.1, p.2) from rfl, keysOf_cons] at hx
    rw [show p = (p.1, p.2) from rfl, lookupAge_cons]
    have h1 : p.1 ≠ x := fun h => hx (h ▸ List.mem_cons_self _ _)
    have h2 : x ∉ keysOf rest := fun h => hx (List.mem_cons_of_mem _ h)
    simp [h1, ih h2]

theorem keysOf_sublist {l1 l2 : List (Nat × HashAge)}
    (h : List.Sublist l1 l2) : List.Sublist (keysOf l1) (keysOf l2) :=
  h.map Prod.fst

theorem heightsOf_sublist {l1 l2 : List (Nat × HashAge)}
    (h : List.Sublist l1 l2) : List.Sublist (heightsOf l1) (heightsOf l2) :=
  h.map _

theorem eraseKey_sublist (l : List (Nat × HashAge)) (k : Nat) :
    List.Sublist (eraseKey l k) l := List.filter_sublist l

theorem lookupAge_eraseKey (l : List (Nat × HashAge)) (k x : Nat) :
    lookupAge (eraseKey l k) x = if x = k then none else lookupAge l x := by
  induction l with
  | nil => simp [eraseKey, lookupAge, ite_self]
  | cons p rest ih =>
    obtain ⟨pk, pa⟩ := p
    by_cases hpk : pk = k
    · rw [show eraseKey ((pk, pa) :: rest) k = eraseKey rest k from by
        simp [eraseKey, List.filter_cons, hpk]]
      rw [ih]
      by_cases hxk : x = k
      · simp [hxk]
      · have hpx : pk ≠ x := fun h => hxk (h.symm.trans hpk)
        simp [hxk, lookupAge_cons, hpx]
    · rw [show eraseKey ((pk, pa) :: rest) k = (pk, pa) :: eraseKey rest k from by
        simp [eraseKey, List.filter_cons, hpk]]
      rw [lookupAge_cons, lookupAge_cons, ih]
      by_cases hpx : pk = x
      · have hxk : x ≠ k := fun h => hpk (hpx.trans h)
        simp [hpx, hxk]
      · simp [hpx]

theorem lookupAge_insertAge (l : List (Nat × HashAge)) (k : Nat) (a : HashAge)
    (x : Nat) :
    lookupAge (insertAge l k a) x = if x = k then some a else lookupAge l x := by
  rw [insertAge, lookupAge_cons, lookupAge_eraseKey]
  by_cases hxk : x = k
  · simp [hxk]
  · have hkx : k ≠ x := fun h => hxk h.symm
    simp [hxk, hkx]

theorem mem_keysOf_of_lookupAge {l : List (Nat × HashAge)} {x : Nat}
    {a : HashAge} (h : lookupAge l x = some a) : x ∈ keysOf l := by
  by_cases hx : x ∈ keysOf l
  · exact hx
  · rw [lookupAge_eq_none_of_not_mem l x hx] at h
    cases h

theorem lookupAge_filter_value (pr : HashAge → Bool)
    (l : List (Nat × HashAge)) (x : Nat) (hnd : (keysOf l).Nodup) :
    lookupAge (l.filter (fun p => pr p.2)) x =
      (lookupAge l x).bind (fun a => if pr a then some a else none) := by
  induction l with
  | nil => rfl
  | cons p rest ih =>
    obtain ⟨pk, pa⟩ := p
    rw [keysOf_cons, List.nodup_cons] at hnd
    obtain ⟨hpk, hnd⟩ := hnd
    by_cases hpx : pk = x
    · cases hpr : pr pa with
      | true => simp [List.filter_cons, hpr, lookupAge_cons, hpx]
      | false =>
        have hx : x ∉ keysOf (rest.filter (fun p => pr p.2)) := by
          intro hmem
          exact hpk (hpx ▸ (keysOf_sublist (List.filter_sublist rest)).subset hmem)
        simp [List.filter_cons, hpr, lookupAge_cons, hpx,
          lookupAge_eq_none_of_not_mem _ x hx]
    · cases hpr : pr pa with
      | true => simp [List.filter_cons, hpr, lookupAge_cons, hpx, ih hnd]
      | false => simp [List.filter_cons, hpr, lookupAge_cons, hpx, ih hnd]

theorem register_hash_ages (q : BlockhashQueue) (h f ts : Nat) :
    (q.register_hash h f ts).ages =
      insertAge
        (if q.max_age ≤ q.ages.length then
          q.ages.filter
            (fun p => BlockhashQueue.check_age (q.hash_height + 1) q.max_age p.2)
        else q.ages)
        h
        { fee_calculator := f, hash_height := q.hash_height + 1,
          timestamp := ts } := rfl

theorem mem_insertAge {l : List (Nat × HashAge)} {k : Nat} {a : HashAge}
    {p : Nat × HashAge} (h : p ∈ insertAge l k a) : p = (k, a) ∨ p ∈ l := by
  rcases List.mem_cons.mp h with h | h
  · exact Or.inl h
  · exact Or.inr (List.mem_of_mem_filter h)

/-- C1: `register_hash(marker, fee_schedule)` increments the height by exactly
one, sets `last_marker`, and updates the entry map as follows: the new marker
maps to an entry at the post-increment height; any other marker is looked up
in the old map, and its entry is dropped exactly when the map was at or above
capacity (`entries.len() >= max_age`) and the entry's age relative to the
post-increment height strictly exceeds `max_age` (an entry exactly at the
boundary survives).  Quantified over every `HashMap`-representable state
(`WF`: distinct keys). -/
theorem register_hash_full_spec (q : BlockhashQueue) (h f ts h' : Nat)
    (hwf : WF q) :
    (q.register_hash h f ts).hash_height = q.hash_height + 1 ∧
    (q.register_hash h f ts).last_hash = some h ∧
    lookupAge (q.register_hash h f ts).ages h' =
      (if h' = h then
        some { fee_calculator := f, hash_height := q.hash_height + 1,
               timestamp := ts }
      else if q.max_age ≤ q.ages.length then
        (lookupAge q.ages h').bind
          (fun a =>
            if q.max_age < q.hash_height + 1 - a.hash_height then none
            else some a)
      else lookupAge q.ages h') := by
  refine ⟨rfl, rfl, ?_⟩
  rw [register_hash_ages, lookupAge_insertAge]
  by_cases hh : h' = h
  · simp [hh]
  · rw [if_neg hh, if_neg hh]
    by_cases hc : q.max_age ≤ q.ages.length
    · rw [if_pos hc, if_pos hc, lookupAge_filter_value _ _ _ hwf]
      cases lookupAge q.ages h' with
      | none => rfl
      | some a =>
        have hb : ∀ (g : HashAge → Option HashAge), (some a).bind g = g a :=
          fun _ => rfl
        rw [hb, hb]
        by_cases hle : q.hash_height + 1 - a.hash_height ≤ q.max_age
        · rw [if_pos (by simpa [BlockhashQueue.check_age] using hle),
            if_neg (by omega)]
        · rw [if_neg (by simpa [BlockhashQueue.check_age] using hle),
            if_pos (by omega)]
    · rw [if_neg hc, if_neg hc]

/-- A concrete well-formed registry state used as the instantiation point for
`register_hash_full_spec`: height 3, capacity 1, two live entries of which the
older one (key 5, registered at height 1) is due for eviction. -/
def sampleQueue : BlockhashQueue :=
  { hash_height := 3
    last_hash := some 6
    ages := [(5, { fee_calculator := 7, hash_height := 1, timestamp := 0 }),
             (6, { fee_calculator := 8, hash_height := 3, timestamp := 0 })]
    max_age := 1
    force_calculator := none }

/-- C1 witness: `register_hash_full_spec` applied to `sampleQueue` with a
fresh marker 9 and probe marker 5 (which the sweep evicts). -/
theorem register_hash_full_spec_witness :
    WF sampleQueue ∧
    ((sampleQueue.register_hash 9 2 4).hash_height =
        sampleQueue.hash_height + 1 ∧
      (sampleQueue.register_hash 9 2 4).last_hash = some 9 ∧
      lookupAge (sampleQueue.register_hash 9 2 4).ages 5 =
        (if (5 : Nat) = 9 then
          some { fee_calculator := 2, hash_height := sampleQueue.hash_height + 1,
                 timestamp := 4 }
        else if sampleQueue.max_age ≤ sampleQueue.ages.length then
          (lookupAge sampleQueue.ages 5).bind
            (fun a =>
              if sampleQueue.max_age <
                  sampleQueue.hash_height + 1 - a.hash_height then none
              else some a)
        else lookupAge sampleQueue.ages 5)) :=
  ⟨by decide, register_hash_full_spec sampleQueue 9 2 4 5 (by decide)⟩

/-- C2: `check_hash_age(marker, age_limit)` returns `Some(true)` whenever the
override calculator is set (for every marker, registered or not); otherwise it
returns `None` exactly when the marker is absent, `Some(true)` exactly when it
is present with `height - height_at_registration <= age_limit`, and
`Some(false)` exactly when it is present but older than `age_limit`. -/
theorem check_hash_age_characterization (q : BlockhashQueue)
    (h limit : Nat) :
    (q.check_hash_age h limit = none ↔
      q.force_calculator = none ∧ lookupAge q.ages h = none) ∧
    (q.check_hash_age h limit = some true ↔
      (q.force_calculator.isSome ∨
        ∃ a, lookupAge q.ages h = some a ∧
          q.hash_height - a.hash_height ≤ limit)) ∧
    (q.check_hash_age h limit = some false ↔
      (q.force_calculator = none ∧
        ∃ a, lookupAge q.ages h = some a ∧
          limit < q.hash_height - a.hash_height)) := by
  cases hf : q.force_calculator with
  | some f =>
    have hd : q.check_hash_age h limit = some true := by
      unfold BlockhashQueue.check_hash_age; simp [hf]
    simp [hd, hf]
  | none =>
    cases hl : lookupAge q.ages h with
    | none =>
      have hd : q.check_hash_age h limit = none := by
        unfold BlockhashQueue.check_hash_age; simp [hf, hl]
      simp [hd, hf, hl]
    | some a =>
      have hd : q.check_hash_age h limit =
          some (decide (q.hash_height - a.hash_height ≤ limit)) := by
        unfold BlockhashQueue.check_hash_age; simp [hf, hl]
      rw [hd]
      refine ⟨by simp [hf, hl], ?_, ?_⟩
      · constructor
        · intro he
          exact Or.inr ⟨a, rfl, of_decide_eq_true (Option.some.inj he)⟩
        · rintro (hk | ⟨b, hb, hble⟩)
          · simp at hk
          · obtain rfl := Option.some.inj hb
            rw [decide_eq_true hble]
      · constructor
        · intro he
          refine ⟨rfl, a, rfl, ?_⟩
          have := of_decide_eq_false (Option.some.inj he)
          omega
        · rintro ⟨-, b, hb, hlt⟩
          obtain rfl := Option.some.inj hb
          have hfalse : decide (q.hash_height - a.hash_height ≤ limit) = false :=
            decide_eq_false (by omega)
          rw [hfalse]

/-- Invariant used for the retention bound: the heights at registration of
the live entries are pairwise distinct and never exceed the registry's
current height. -/
def HeightInv (q : BlockhashQueue) : Prop :=
  (heightsOf q.ages).Nodup ∧ ∀ p ∈ q.ages, p.2.hash_height ≤ q.hash_height

theorem length_le_of_nodup_of_mem_Icc (l : List Nat) (a b : Nat)
    (hnd : l.Nodup) (hm : ∀ x ∈ l, x ∈ Finset.Icc a b) :
    l.length ≤ b + 1 - a := by
  have h1 : l.toFinset.card = l.length := List.toFinset_card_of_nodup hnd
  have h2 : l.toFinset ⊆ Finset.Icc a b := by
    intro x hx
    exact hm x (List.mem_toFinset.mp hx)
  have h3 := Finset.card_le_card h2
  rw [h1, Nat.card_Icc] at h3
  exact h3

theorem heightsOf_length (l : List (Nat × HashAge)) :
    (heightsOf l).length = l.length := List.length_map _ _

/-- After an eviction sweep at post-increment height, at most `max_age`
entries survive: their heights are pairwise distinct and lie in a window of
`max_age` consecutive values. -/
theorem evicted_length_le (q : BlockhashQueue)
    (hnd : (heightsOf q.ages).Nodup)
    (hle : ∀ p ∈ q.ages, p.2.hash_height ≤ q.hash_height) :
    (q.ages.filter
      (fun p =>
        BlockhashQueue.check_age (q.hash_height + 1) q.max_age p.2)).length ≤
      q.max_age := by
  set l2 := q.ages.filter
    (fun p => BlockhashQueue.check_age (q.hash_height + 1) q.max_age p.2)
    with hl2
  have hsub : List.Sublist l2 q.ages := List.filter_sublist _
  have hnd2 : (heightsOf l2).Nodup := hnd.sublist (heightsOf_sublist hsub)
  have hmem : ∀ x ∈ heightsOf l2,
      x ∈ Finset.Icc (q.hash_height + 1 - q.max_age) q.hash_height := by
    intro x hx
    simp only [heightsOf, List.mem_map] at hx
    obtain ⟨p, hp, rfl⟩ := hx
    obtain ⟨hpq, hchk⟩ := List.mem_filter.mp hp
    simp only [BlockhashQueue.check_age, decide_eq_true_eq] at hchk
    have hub := hle p hpq
    rw [Finset.mem_Icc]
    omega
  have hfin := length_le_of_nodup_of_mem_Icc _ _ _ hnd2 hmem
  rw [heightsOf_length] at hfin
  omega

/-- One `register_hash` step from any state satisfying `HeightInv`, given a
sublist `l2` of the old entries of size at most `max_age` that the new map is
built from: the invariant is preserved and the new map holds at most
`max_age + 1` entries. -/
theorem register_generic (q : BlockhashQueue) (h f ts : Nat)
    (l2 : List (Nat × HashAge))
    (hages : (q.register_hash h f ts).ages =
      insertAge l2 h
        { fee_calculator := f, hash_height := q.hash_height + 1,
          timestamp := ts })
    (hsub : List.Sublist l2 q.ages)
    (hlen : l2.length ≤ q.max_age)
    (hnd : (heightsOf q.ages).Nodup)
    (hle : ∀ p ∈ q.ages, p.2.hash_height ≤ q.hash_height) :
    HeightInv (q.register_hash h f ts) ∧
    (q.register_hash h f ts).ages.length ≤ q.max_age + 1 := by
  refine ⟨⟨?_, ?_⟩, ?_⟩
  · rw [hages, insertAge]
    have hh : heightsOf
        ((h, { fee_calculator := f, hash_height := q.hash_height + 1,
               timestamp := ts }) :: eraseKey l2 h) =
        (q.hash_height + 1) :: heightsOf (eraseKey l2 h) := rfl
    rw [hh, List.nodup_cons]
    refine ⟨?_, hnd.sublist
      (heightsOf_sublist ((eraseKey_sublist l2 h).trans hsub))⟩
    intro hmem
    simp only [heightsOf, List.mem_map] at hmem
    obtain ⟨p, hp, hph⟩ := hmem
    have hpq : p ∈ q.ages := hsub.subset (List.mem_of_mem_filter hp)
    have := hle p hpq
    omega
  · intro p hp
    rw [hages] at hp
    rcases mem_insertAge hp with rfl | hp'
    · show q.hash_height + 1 ≤ q.hash_height + 1
      exact Nat.le_refl _
    · have hpq : p ∈ q.ages := hsub.subset hp'
      have := hle p hpq
      show p.2.hash_height ≤ q.hash_height + 1
      omega
  · rw [hages, insertAge]
    have herase : (eraseKey l2 h).length ≤ l2.length :=
      (eraseKey_sublist l2 h).length_le
    simp only [List.length_cons]
    omega

/-- Lemma: `register_hash` preserves `HeightInv` and leaves at most `max_age + 1`
entries. -/
theorem register_hash_inv (q : BlockhashQueue) (h f ts : Nat)
    (hInv : HeightInv q) :
    HeightInv (q.register_hash h f ts) ∧
    (q.register_hash h f ts).ages.length ≤ q.max_age + 1 := by
  obtain ⟨hnd, hle⟩ := hInv
  have hages := register_hash_ages q h f ts
  by_cases hc : q.max_age ≤ q.ages.length
  · rw [if_pos hc] at hages
    exact register_generic q h f ts _ hages (List.filter_sublist _)
      (evicted_length_le q hnd hle) hnd hle
  · rw [if_neg hc] at hages
    exact register_generic q h f ts _ hages (List.Sublist.refl _)
      (by omega) hnd hle

theorem runRegs_nil (q : BlockhashQueue) : runRegs q [] = q := rfl

theorem runRegs_cons (q : BlockhashQueue) (r : Nat × Nat × Nat)
    (regs : List (Nat × Nat × Nat)) :
    runRegs q (r :: regs) =
      runRegs (q.register_hash r.1 r.2.1 r.2.2) regs := rfl

theorem runRegs_inv (regs : List (Nat × Nat × Nat)) (q : BlockhashQueue)
    (hInv : HeightInv q) (hlen : q.ages.length ≤ q.max_age + 1) :
    HeightInv (runRegs q regs) ∧
    (runRegs q regs).ages.length ≤ (runRegs q regs).max_age + 1 ∧
    (runRegs q regs).max_age = q.max_age := by
  induction regs generalizing q with
  | nil => exact ⟨hInv, hlen, rfl⟩
  | cons r regs ih =>
    rw [runRegs_cons]
    obtain ⟨hInv2, hlen2⟩ := register_hash_inv q r.1 r.2.1 r.2.2 hInv
    exact ih (q.register_hash r.1 r.2.1 r.2.2) hInv2 hlen2

/-- C3 counterexample: three `force_insert_old` calls — public operations —
drive the entry count of a `new(1)` registry to 3, which exceeds
`max_age + 1 = 2`, refuting the bound over arbitrary sequences of the public
operations. -/
theorem entries_length_cex :
    1 + 1 < (runOps (BlockhashQueue.new 1)
      [Op.forceInsertOld 10 0 0 0, Op.forceInsertOld 11 0 0 0,
       Op.forceInsertOld 12 0 0 0]).ages.length := by decide

/-- C3 (amended): in every state reachable from `new(M)` by `register` calls
alone — optionally seeded by the single bootstrap `genesis` call the
surrounding system performs — the entry map holds at most `M + 1` entries:
lazy eviction lets it exceed `max_age` by at most the one freshly inserted
entry. -/
theorem entries_length_le (M h f ts : Nat)
    (regs : List (Nat × Nat × Nat)) :
    (runRegs (BlockhashQueue.new M) regs).ages.length ≤ M + 1 ∧
    (runRegs (BlockhashQueue.genesis_hash (BlockhashQueue.new M) h f ts)
        regs).ages.length ≤ M + 1 := by
  constructor
  · have hInv : HeightInv (BlockhashQueue.new M) := by
      constructor
      · exact List.nodup_nil
      · intro p hp
        cases hp
    obtain ⟨-, hlen, hmax⟩ := runRegs_inv regs (BlockhashQueue.new M) hInv
      (by simp [BlockhashQueue.new])
    rw [hmax] at hlen
    exact hlen
  · have hInv : HeightInv
        (BlockhashQueue.genesis_hash (BlockhashQueue.new M) h f ts) := by
      constructor
      · exact List.nodup_singleton _
      · intro p hp
        rcases mem_insertAge hp with rfl | hp'
        · exact Nat.zero_le _
        · cases hp'
    obtain ⟨-, hlen, hmax⟩ := runRegs_inv regs _ hInv (by
      show (insertAge [] h
        { fee_calculator := f, hash_height := 0, timestamp := ts }).length ≤
        M + 1
      simp [insertAge, eraseKey])
    rw [hmax] at hlen
    exact hlen

theorem genesis_hash_ages (q : BlockhashQueue) (h f ts : Nat) :
    (q.genesis_hash h f ts).ages =
      insertAge q.ages h
        { fee_calculator := f, hash_height := 0, timestamp := ts } := rfl

theorem force_insert_old_found (q : BlockhashQueue) (h f hh ts : Nat)
    (hlk : (lookupAge q.ages h).isSome = true) :
    q.force_insert_old h f hh ts = (false, q) := by
  simp [BlockhashQueue.force_insert_old, hlk]

theorem force_insert_old_notfound (q : BlockhashQueue) (h f hh ts : Nat)
    (hlk : (lookupAge q.ages h).isSome = false) :
    q.force_insert_old h f hh ts =
      (true,
        { q with
          ages := insertAge q.ages h
            { fee_calculator := f, hash_height := hh, timestamp := ts } }) := by
  simp [BlockhashQueue.force_insert_old, hlk]

/-- Along any `ReachableSafe` trace, if no entry of the start state has a
height above the start state's counter, the same holds in every reached
state. -/
theorem reachableSafe_height_bound (q0 q : BlockhashQueue)
    (hr : ReachableSafe q0 q)
    (h0 : ∀ p ∈ q0.ages, p.2.hash_height ≤ q0.hash_height) :
    ∀ p ∈ q.ages, p.2.hash_height ≤ q.hash_height := by
  induction hr with
  | refl => exact h0
  | register q h f ts hr ih =>
    intro p hp
    rw [register_hash_ages] at hp
    rcases mem_insertAge hp with rfl | hp'
    · show q.hash_height + 1 ≤ q.hash_height + 1
      exact Nat.le_refl _
    · have hpq : p ∈ q.ages := by
        by_cases hc : q.max_age ≤ q.ages.length
        · rw [if_pos hc] at hp'
          exact List.mem_of_mem_filter hp'
        · rw [if_neg hc] at hp'
          exact hp'
      have := ih p hpq
      show p.2.hash_height ≤ q.hash_height + 1
      omega
  | genesis q h f ts hr ih =>
    intro p hp
    rw [genesis_hash_ages] at hp
    rcases mem_insertAge hp with rfl | hp'
    · exact Nat.zero_le _
    · exact ih p hp'
  | forceInsert q h f hh ts hr hhh ih =>
    intro p hp
    cases hlk : (lookupAge q.ages h).isSome with
    | true =>
      rw [force_insert_old_found q h f hh ts hlk] at hp ⊢
      exact ih p hp
    | false =>
      rw [force_insert_old_notfound q h f hh ts hlk] at hp ⊢
      rcases mem_insertAge hp with rfl | hp'
      · exact hhh
      · exact ih p hp'
  | forceSet q f hr ih =>
    intro p hp
    exact ih p hp

/-- C4 (amended): in every state reachable from `new(M)` by the public
operations — with `force_insert_old` used as intended, i.e. its
`hash_height` argument never above the registry's current height — every
entry satisfies `height_at_registration <= height`, so the `u64`
subtractions `height - height_at_registration` in `check_hash_age` and
`get_hash_age` never underflow. -/
theorem entry_height_le_counter (M : Nat) (q : BlockhashQueue)
    (p : Nat × HashAge) (hr : ReachableSafe (BlockhashQueue.new M) q)
    (hp : p ∈ q.ages) : p.2.hash_height ≤ q.hash_height :=
  reachableSafe_height_bound _ _ hr (fun _ hp0 => by cases hp0) p hp

/-- C4 witness: the invariant evaluated on the state obtained by one
registration from `new(1)`. -/
theorem entry_height_le_counter_witness :
    ((0 : Nat),
        ({ fee_calculator := 0, hash_height := 1, timestamp := 0 } : HashAge)) ∈
      ((BlockhashQueue.new 1).register_hash 0 0 0).ages ∧
    ((0 : Nat),
        ({ fee_calculator := 0, hash_height := 1, timestamp := 0 } : HashAge)).2.hash_height ≤
      ((BlockhashQueue.new 1).register_hash 0 0 0).hash_height :=
  ⟨by decide,
    entry_height_le_counter 1 _ _
      (ReachableSafe.register _ 0 0 0 ReachableSafe.refl) (by decide)⟩

/-- C4 counterexample: `force_insert_old` is itself a public operation and
accepts an arbitrary height, so from `new(1)` (height 0) a single public
operation produces an entry whose `height_at_registration` (5) exceeds the
registry's height (0), refuting the claim over unrestricted sequences of the
public operations. -/
theorem entry_height_cex :
    ((10 : Nat),
        ({ fee_calculator := 0, hash_height := 5, timestamp := 0 } : HashAge)) ∈
      (runOps (BlockhashQueue.new 1) [Op.forceInsertOld 10 0 5 0]).ages ∧
    (runOps (BlockhashQueue.new 1) [Op.forceInsertOld 10 0 5 0]).hash_height <
      ({ fee_calculator := 0, hash_height := 5, timestamp := 0 } : HashAge).hash_height := by
  decide

/-- C5 (amended): "not found" and "too old" are returned values, never
faults; the only hard failure is the `UnsetState` panic from reading
`last_hash` — directly or through the `get_fee_calculator` fallback — before
any registration or genesis call.  In every state without override in which
`last_marker` is set, `get_fee_calculator` on an unknown marker returns the
last-marker fallback value instead of faulting. -/
theorem get_fee_calculator_no_fault (q : BlockhashQueue) (lh h : Nat)
    (hf : q.force_calculator = none) (hl : q.last_hash = some lh)
    (hm : lookupAge q.ages h = none) :
    q.last_hash_get = some lh ∧
    q.get_fee_calculator h =
      some ((lookupAge q.ages lh).map (fun age => age.fee_calculator)) := by
  constructor
  · rw [BlockhashQueue.last_hash_get, hl]
  · unfold BlockhashQueue.get_fee_calculator
    rw [hf, hm, hl]
    simp

/-- C5 witness: a registry seeded by one genesis call, probed with the
unknown marker 2; the fallback returns the genesis entry's fee calculator. -/
theorem get_fee_calculator_no_fault_witness :
    ((BlockhashQueue.new 100).genesis_hash 1 5 0).force_calculator = none ∧
    ((BlockhashQueue.new 100).genesis_hash 1 5 0).last_hash = some 1 ∧
    lookupAge ((BlockhashQueue.new 100).genesis_hash 1 5 0).ages 2 = none ∧
    (((BlockhashQueue.new 100).genesis_hash 1 5 0).last_hash_get = some 1 ∧
      ((BlockhashQueue.new 100).genesis_hash 1 5 0).get_fee_calculator 2 =
        some ((lookupAge ((BlockhashQueue.new 100).genesis_hash 1 5 0).ages
          1).map (fun age => age.fee_calculator))) :=
  ⟨by decide, by decide, by decide,
    get_fee_calculator_no_fault _ 1 2 (by decide) (by decide) (by decide)⟩

/-- C5 counterexample: on the fresh registry `new(100)` — a state without
override — `get_fee_calculator` with an unknown marker reaches
`self.last_hash.as_ref().unwrap()` with `last_hash == None` and panics
(the outer `none`) instead of returning a value, so the claim's "in every
registry state without override" is too strong. -/
theorem get_fee_calculator_fault_cex :
    (BlockhashQueue.new 100).force_calculator = none ∧
    (BlockhashQueue.new 100).get_fee_calculator 0 = none := by decide

/-- C6 (amended): with the wall-clock reading an explicit input, every
mutating operation is deterministic: two `Step` runs of the same operation
(equal arguments, equal clock reading) from equal states produce equal
successor states and equal returned values. -/
theorem step_deterministic (q q1 q2 : BlockhashQueue) (op : Op)
    (r1 r2 : Option Bool) (h1 : Step q op q1 r1) (h2 : Step q op q2 r2) :
    q1 = q2 ∧ r1 = r2 := by
  cases h1 <;> cases h2 <;> exact ⟨rfl, rfl⟩

/-- C6 witness: two runs of `register(0, 0)` at clock reading 0 from
`new(1)`. -/
theorem step_deterministic_witness :
    (BlockhashQueue.new 1).register_hash 0 0 0 =
      (BlockhashQueue.new 1).register_hash 0 0 0 ∧
    (none : Option Bool) = none :=
  step_deterministic (BlockhashQueue.new 1) _ _ (Op.register 0 0 0) _ _
    (Step.register _ 0 0 0) (Step.register _ 0 0 0)

/-- C6 counterexample: the source's `register_hash` reads the wall clock
(`timestamp()`), which is not among its inputs; two runs from the equal state
`new(1)` with equal arguments but clock readings 0 and 1 produce unequal
successor states (the stored timestamps differ), refuting determinism in
(inputs, state) alone. -/
theorem step_clock_cex :
    (BlockhashQueue.new 1).register_hash 0 0 0 ≠
      (BlockhashQueue.new 1).register_hash 0 0 1 := by decide

/-- C7: `force_insert_old(marker, fee_schedule, height_at_registration,
timestamp)` inserts iff the marker is absent, returns `true` exactly when it
inserted, leaves `height`, `last_marker`, `max_age`, the override calculator
and every other entry unchanged, and on a duplicate key returns `false`
leaving the whole state unchanged. -/
theorem force_insert_old_spec (q : BlockhashQueue) (h f hh ts h' : Nat)
    (hne : h' ≠ h) :
    ((q.force_insert_old h f hh ts).1 = true ↔ lookupAge q.ages h = none) ∧
    (q.force_insert_old h f hh ts).2.hash_height = q.hash_height ∧
    (q.force_insert_old h f hh ts).2.last_hash = q.last_hash ∧
    (q.force_insert_old h f hh ts).2.max_age = q.max_age ∧
    (q.force_insert_old h f hh ts).2.force_calculator = q.force_calculator ∧
    (lookupAge q.ages h = none →
      lookupAge (q.force_insert_old h f hh ts).2.ages h =
        some { fee_calculator := f, hash_height := hh, timestamp := ts }) ∧
    ((lookupAge q.ages h).isSome → (q.force_insert_old h f hh ts).2 = q) ∧
    lookupAge (q.force_insert_old h f hh ts).2.ages h' =
      lookupAge q.ages h' := by
  cases hlk : lookupAge q.ages h with
  | some a =>
    have hrw := force_insert_old_found q h f hh ts (by rw [hlk]; rfl)
    rw [hrw]
    refine ⟨by simp, rfl, rfl, rfl, rfl, ?_, fun _ => rfl, rfl⟩
    intro hcontra
    cases hcontra
  | none =>
    have hrw := force_insert_old_notfound q h f hh ts (by rw [hlk]; rfl)
    rw [hrw]
    refine ⟨by simp, rfl, rfl, rfl, rfl, ?_, ?_, ?_⟩
    · intro _
      show lookupAge (insertAge q.ages h
        { fee_calculator := f, hash_height := hh, timestamp := ts }) h = _
      rw [lookupAge_insertAge]
      simp
    · intro hcontra
      cases hcontra
    · show lookupAge (insertAge q.ages h
        { fee_calculator := f, hash_height := hh, timestamp := ts }) h' = _
      rw [lookupAge_insertAge]
      simp [hne]

/-- C7 witness: `force_insert_old(0, 3, 2, 4)` on the empty registry
`new(5)`, probing the untouched marker 1. -/
theorem force_insert_old_spec_witness :
    (1 : Nat) ≠ 0 ∧
    ((((BlockhashQueue.new 5).force_insert_old 0 3 2 4).1 = true ↔
        lookupAge (BlockhashQueue.new 5).ages 0 = none) ∧
      ((BlockhashQueue.new 5).force_insert_old 0 3 2 4).2.hash_height =
        (BlockhashQueue.new 5).hash_height ∧
      ((BlockhashQueue.new 5).force_insert_old 0 3 2 4).2.last_hash =
        (BlockhashQueue.new 5).last_hash ∧
      ((BlockhashQueue.new 5).force_insert_old 0 3 2 4).2.max_age =
        (BlockhashQueue.new 5).max_age ∧
      ((BlockhashQueue.new 5).force_insert_old 0 3 2 4).2.force_calculator =
        (BlockhashQueue.new 5).force_calculator ∧
      (lookupAge (BlockhashQueue.new 5).ages 0 = none →
        lookupAge ((BlockhashQueue.new 5).force_insert_old 0 3 2 4).2.ages 0 =
          some { fee_calculator := 3, hash_height := 2, timestamp := 4 }) ∧
      ((lookupAge (BlockhashQueue.new 5).ages 0).isSome →
        ((BlockhashQueue.new 5).force_insert_old 0 3 2 4).2 =
          BlockhashQueue.new 5) ∧
      lookupAge ((BlockhashQueue.new 5).force_insert_old 0 3 2 4).2.ages 1 =
        lookupAge (BlockhashQueue.new 5).ages 1) :=
  ⟨by decide, force_insert_old_spec (BlockhashQueue.new 5) 0 3 2 4 1 (by decide)⟩

theorem runOps_nil (q : BlockhashQueue) : runOps q [] = q := rfl

theorem runOps_cons (q : BlockhashQueue) (op : Op) (ops : List Op) :
    runOps q (op :: ops) = runOps (applyOp q op) ops := rfl

theorem force_insert_old_force (q : BlockhashQueue) (h f hh ts : Nat) :
    (q.force_insert_old h f hh ts).2.force_calculator =
      q.force_calculator := by
  unfold BlockhashQueue.force_insert_old
  split <;> rfl

theorem applyOp_force_isSome (q : BlockhashQueue) (op : Op)
    (hq : q.force_calculator.isSome = true) :
    (applyOp q op).force_calculator.isSome = true := by
  cases op with
  | register h f ts => exact hq
  | genesis h f ts => exact hq
  | forceInsertOld h f hh ts =>
    show ((q.force_insert_old h f hh ts).2.force_calculator).isSome = true
    rw [force_insert_old_force]
    exact hq
  | forceSetCalculator f => rfl

/-- C8: once `force_set_calculator_for_every` has been called, every
subsequent sequence of public operations leaves the override calculator set:
no operation clears it back to `None`. -/
theorem override_persistent (q : BlockhashQueue) (f : Nat) (ops : List Op) :
    (runOps (q.force_set_calculator_for_every f)
        ops).force_calculator.isSome = true := by
  have hgen : ∀ (ops : List Op) (s : BlockhashQueue),
      s.force_calculator.isSome = true →
      (runOps s ops).force_calculator.isSome = true := by
    intro ops
    induction ops with
    | nil => exact fun s hs => hs
    | cons op ops ih =>
      intro s hs
      rw [runOps_cons]
      exact ih _ (applyOp_force_isSome s op hs)
  exact hgen ops _ rfl

theorem force_insert_old_max_age (q : BlockhashQueue) (h f hh ts : Nat) :
    (q.force_insert_old h f hh ts).2.max_age = q.max_age := by
  unfold BlockhashQueue.force_insert_old
  split <;> rfl

theorem applyOp_max_age (q : BlockhashQueue) (op : Op) :
    (applyOp q op).max_age = q.max_age := by
  cases op with
  | register h f ts => rfl
  | genesis h f ts => rfl
  | forceInsertOld h f hh ts => exact force_insert_old_max_age q h f hh ts
  | forceSetCalculator f => rfl

/-- C9: in every state reachable from `new(M)` by the public operations,
`len()` returns the configured `max_age` `M`, regardless of how many entries
are live (including zero: the empty initial state is the `ops = []`
instance). -/
theorem len_eq_max_age (M : Nat) (ops : List Op) :
    (runOps (BlockhashQueue.new M) ops).len = M := by
  have hgen : ∀ (ops : List Op) (s : BlockhashQueue),
      (runOps s ops).max_age = s.max_age := by
    intro ops
    induction ops with
    | nil => exact fun _ => rfl
    | cons op ops ih =>
      intro s
      rw [runOps_cons, ih, applyOp_max_age]
  rw [BlockhashQueue.len, hgen]
  rfl

/-- The last registered marker, when set, is a live key of the entry map. -/
def LastLive (q : BlockhashQueue) : Prop :=
  ∀ h, q.last_hash = some h → (lookupAge q.ages h).isSome = true

theorem applyOp_lastLive (q : BlockhashQueue) (op : Op) (hq : LastLive q) :
    LastLive (applyOp q op) := by
  cases op with
  | register h f ts =>
    intro x hx
    have hxh : x = h := (Option.some.inj hx).symm
    rw [show (applyOp q (Op.register h f ts)).ages =
        (q.register_hash h f ts).ages from rfl, register_hash_ages,
      lookupAge_insertAge, if_pos hxh]
    rfl
  | genesis h f ts =>
    intro x hx
    have hxh : x = h := (Option.some.inj hx).symm
    rw [show (applyOp q (Op.genesis h f ts)).ages =
        insertAge q.ages h
          { fee_calculator := f, hash_height := 0, timestamp := ts } from rfl,
      lookupAge_insertAge, if_pos hxh]
    rfl
  | forceInsertOld h f hh ts =>
    intro x hx
    cases hlk : (lookupAge q.ages h).isSome with
    | true =>
      rw [show applyOp q (Op.forceInsertOld h f hh ts) =
          (q.force_insert_old h f hh ts).2 from rfl,
        force_insert_old_found q h f hh ts hlk] at hx ⊢
      exact hq x hx
    | false =>
      rw [show applyOp q (Op.forceInsertOld h f hh ts) =
          (q.force_insert_old h f hh ts).2 from rfl,
        force_insert_old_notfound q h f hh ts hlk] at hx ⊢
      rw [show ({ q with
          ages := insertAge q.ages h
            { fee_calculator := f, hash_height := hh, timestamp := ts } } :
            BlockhashQueue).ages =
          insertAge q.ages h
            { fee_calculator := f, hash_height := hh, timestamp := ts }
          from rfl, lookupAge_insertAge]
      by_cases hxh : x = h
      · simp [hxh]
      · rw [if_neg hxh]
        exact hq x hx
  | forceSetCalculator f =>
    intro x hx
    exact hq x hx

theorem runOps_lastLive (ops : List Op) (q : BlockhashQueue)
    (hq : LastLive q) : LastLive (runOps q ops) := by
  induction ops generalizing q with
  | nil => exact hq
  | cons op ops ih =>
    rw [runOps_cons]
    exact ih _ (applyOp_lastLive q op hq)

/-- C10: in every state reachable from `new(M)` by the public operations, a
set `last_marker` is a key currently present in the entry map, and once set
(at least one genesis or register call has occurred) the legacy
`get_fee_calculator` fallback finds a live entry for every queried marker —
it returns an actual fee calculator, never an absent value and never the
`UnsetState` panic. -/
theorem last_hash_live (M : Nat) (ops : List Op) (h h' : Nat)
    (hl : (runOps (BlockhashQueue.new M) ops).last_hash = some h) :
    (lookupAge (runOps (BlockhashQueue.new M) ops).ages h).isSome = true ∧
    ∃ fee, (runOps (BlockhashQueue.new M) ops).get_fee_calculator h' =
      some (some fee) := by
  have hlive : LastLive (runOps (BlockhashQueue.new M) ops) :=
    runOps_lastLive ops _ (fun x hx => by cases hx)
  have h1 := hlive h hl
  refine ⟨h1, ?_⟩
  unfold BlockhashQueue.get_fee_calculator
  cases hf : (runOps (BlockhashQueue.new M) ops).force_calculator with
  | some f => exact ⟨f, by simp⟩
  | none =>
    cases hlk : lookupAge (runOps (BlockhashQueue.new M) ops).ages h' with
    | some a => exact ⟨a.fee_calculator, by simp [hlk]⟩
    | none =>
      obtain ⟨a, ha⟩ := Option.isSome_iff_exists.mp h1
      exact ⟨a.fee_calculator, by simp [hlk, hl, ha]⟩

/-- C10 witness: one registration of marker 5 in `new(3)`; the last marker 5
is live and the fallback answers for the never-registered marker 77. -/
theorem last_hash_live_witness :
    (runOps (BlockhashQueue.new 3) [Op.register 5 9 0]).last_hash = some 5 ∧
    ((lookupAge (runOps (BlockhashQueue.new 3)
        [Op.register 5 9 0]).ages 5).isSome = true ∧
      ∃ fee, (runOps (BlockhashQueue.new 3)
          [Op.register 5 9 0]).get_fee_calculator 77 = some (some fee)) :=
  ⟨by decide, last_hash_live 3 [Op.register 5 9 0] 5 77 (by decide)⟩
